import Mathlib

/-!
# Verification of the supabase-ftp server core

A shallow embedding, in Lean 4, of the parts of the `1tc-platform`
repository that its specification makes claims about: the IPv4 netmask
utility (`packages/utils/src/netmask.ts`), the FTP command parser and
dispatcher (`packages/supabase-ftp/src/commands/commands.ts`,
`registry.ts`), the per-directive handlers (STOR/APPE/RETR, RNTO, OPTS,
PORT/EPRT), the active connector, and the Supabase-backed virtual
filesystem (`supabase-fs.ts`, newest revision): its `_resolvePath` path
resolution and its `list` operation.  JavaScript strings are modelled as
`List Char` where character-level behaviour matters and as `String`
otherwise, JavaScript 32-bit unsigned arithmetic as `Nat` reduced modulo
`2 ^ 32`, promise chains as explicit outcome parameters, and
`{data, error}` storage results as sum types.
-/

namespace Js

/-- The characters removed by JavaScript `String.prototype.trim` that can
occur in the inputs at hand (ASCII whitespace and line terminators). -/
def isJsWs (c : Char) : Bool :=
  c = ' ' ∨ c = '\t' ∨ c = '\n' ∨ c = '\r' ∨ c = '\x0b' ∨ c = '\x0c'

/-- JavaScript `String.prototype.trim` on a character list. -/
def jsTrim (l : List Char) : List Char :=
  ((l.dropWhile isJsWs).reverse.dropWhile isJsWs).reverse

/-- Decimal digit test used when modelling `parseInt(s, 10)`. -/
def isDigitCh (c : Char) : Bool := '0' ≤ c ∧ c ≤ '9'

/-- The value of a list of decimal digits. -/
def digitsVal (l : List Char) : Nat :=
  l.foldl (fun acc c => acc * 10 + (c.toNat - '0'.toNat)) 0

/-- JavaScript `parseInt(s, 10)`: skip leading whitespace, read an
optional sign and then a maximal run of decimal digits; `NaN` (here
`none`) when no digit is read.  All inputs parsed by the FTP handlers are
plain optionally-signed decimal numerals, which this covers exactly. -/
def parseIntDec (s : List Char) : Option Int :=
  let t := s.dropWhile isJsWs
  let (neg, t') : Bool × List Char :=
    match t with
    | '-' :: rest => (true, rest)
    | '+' :: rest => (false, rest)
    | _ => (false, t)
  let digits := t'.takeWhile isDigitCh
  if digits = [] then none
  else some (if neg then -(digitsVal digits : Int) else (digitsVal digits : Int))

end Js

namespace Netmask

/-- Reduction to a JavaScript unsigned 32-bit value (`>>> 0`). -/
def u32 (n : Nat) : Nat := n % 2 ^ 32

/-- `ip2long` applied to the four octets of an already-validated
dotted-decimal IPv4 address: `((a << 24) | (b << 16) | (c << 8) | d) >>> 0`.
The string-level regex of the source guarantees exactly four decimal
octets, each between 0 and 255 with no leading zeros; the embedding takes
those octets directly. -/
def ip2long (a b c d : Nat) : Nat :=
  u32 ((a <<< 24) ||| (b <<< 16) ||| (c <<< 8) ||| d)

/-- The mask long computed by the `Netmask` constructor for a CIDR bit
count: `bitmask > 0 ? (0xffffffff << (32 - bitmask)) >>> 0 : 0`. -/
def maskLongOfBitmask (m : Nat) : Nat :=
  if 0 < m then u32 (0xffffffff <<< (32 - m)) else 0

/-- The fields of a constructed `Netmask` that `contains` consults. -/
structure NetmaskRec where
  bitmask : Nat
  maskLong : Nat
  netLong : Nat
  deriving Repr, DecidableEq

/-- The `Netmask` constructor on an address long and a numeric CIDR mask:
validates `0 ≤ bitmask ≤ 32` (throwing otherwise, modelled as `none`) and
computes `netLong = (addressLong & maskLong) >>> 0`. -/
def netmaskNew (addressLong : Nat) (mask : Nat) : Option NetmaskRec :=
  if mask > 32 then none
  else
    let maskLong := maskLongOfBitmask mask
    some { bitmask := mask, maskLong, netLong := u32 (Nat.land addressLong maskLong) }

/-- `Netmask.contains` on an already-validated plain IPv4 address (the
string branch for `/`-containing or non-4-part inputs does not apply):
`(ipLong & maskLong) >>> 0 === (netLong & maskLong) >>> 0`. -/
def contains (n : NetmaskRec) (ipLong : Nat) : Bool :=
  u32 (Nat.land ipLong n.maskLong) == u32 (Nat.land n.netLong n.maskLong)

end Netmask

namespace Transfer

/-- How far a STOR/APPE/RETR promise chain gets before it settles. -/
inductive Outcome where
  /-- `waitForConnection` rejected with a `TimeoutError`. -/
  | waitTimeout
  /-- `waitForConnection` rejected with a non-`TimeoutError` error (both
  shipped connectors reject with a plain `Error` on their internal
  timeout). -/
  | waitFailed
  /-- `fs.get`/`fs.read`/`fs.write` rejected, or RETR hit a directory:
  the chain fails before the 150 reply. -/
  | openFailed
  /-- The data socket or the filesystem stream errored after the 150
  reply (by which point the handler has already zeroed the REST count). -/
  | transferFailed
  /-- The transfer ran to completion. -/
  | completed
  deriving Repr, DecidableEq

/-- The STOR handler (`registration/stor.ts`) reduced to the observables
the claims speak about: the terminal control-connection reply and the
session's REST byte count after the handler settles.  Early rejections
(no filesystem: 550, no `write`: 402, no argument: 501) and the
catch-clause classification (`TimeoutError` → 425, otherwise → 550) are
kept; `this.restByteCount = 0` executes only on the path that survives
`waitForConnection` and `fs.write`. -/
def storRun (hasFs hasWrite : Bool) (arg : Option String) (rest : Nat)
    (o : Outcome) : Nat × Nat :=
  if ¬hasFs then (550, rest)
  else if ¬hasWrite then (402, rest)
  else
    match arg with
    | none => (501, rest)
    | some _ =>
      match o with
      | .waitTimeout => (425, rest)
      | .waitFailed => (550, rest)
      | .openFailed => (550, rest)
      | .transferFailed => (550, 0)
      | .completed => (226, 0)

/-- The RETR handler (`registration/retr.ts`), same reduction. RETR
replies 502 when the filesystem lacks `read`, zeroes the REST count after
the 150 reply, and applies the catch-clause classification to
`fs.get` failures, directory hits and stream errors alike. -/
def retrRun (hasFs hasRead : Bool) (arg : Option String) (rest : Nat)
    (o : Outcome) : Nat × Nat :=
  if ¬hasFs then (550, rest)
  else if ¬hasRead then (502, rest)
  else
    match arg with
    | none => (501, rest)
    | some _ =>
      match o with
      | .waitTimeout => (425, rest)
      | .waitFailed => (550, rest)
      | .openFailed => (550, rest)
      | .transferFailed => (550, 0)
      | .completed => (226, 0)

/-- The APPE handler (`appe.ts`), same reduction (550/402/501 early
rejections, 425 on `TimeoutError`, 550 otherwise, REST zeroed after the
write stream is open). -/
def appeRun (hasFs hasWrite : Bool) (arg : Option String) (rest : Nat)
    (o : Outcome) : Nat × Nat :=
  if ¬hasFs then (550, rest)
  else if ¬hasWrite then (402, rest)
  else
    match arg with
    | none => (501, rest)
    | some _ =>
      match o with
      | .waitTimeout => (425, rest)
      | .waitFailed => (550, rest)
      | .openFailed => (550, rest)
      | .transferFailed => (550, 0)
      | .completed => (226, 0)

/-- The REST count a handler leaves behind once the early rejections are
out of the way: zeroed exactly on the outcomes reached after the stream
is open. -/
def restAfter (rest : Nat) : Outcome → Nat
  | .transferFailed => 0
  | .completed => 0
  | _ => rest

end Transfer

namespace StorWrite

/-- The `{ append?, start? }` options object of `FileSystem.write`. -/
structure WriteOptions where
  append : Option Bool
  start : Option Nat
  deriving Repr, DecidableEq

/-- The arguments the STOR handler passes to `fs.write`: the source line
is `.then(() => fs.write(fileName))` — the session's REST byte count is
not forwarded (no options object at all). -/
def storWriteArgs (fileName : String) (_restByteCount : Nat) :
    String × Option WriteOptions :=
  (fileName, none)

/-- The arguments the APPE handler passes to `fs.write`:
`fs.write(fileName, { append: true, start: this.restByteCount })`. -/
def appeWriteArgs (fileName : String) (restByteCount : Nat) :
    String × Option WriteOptions :=
  (fileName, some ⟨some true, some restByteCount⟩)

/-- JavaScript default parameter `options = { append: true }` of
`SupabaseFileSystem.write`. -/
def effectiveWriteOptions : Option WriteOptions → WriteOptions
  | none => ⟨some true, none⟩
  | some o => o

/-- The tus-upload configuration built by `SupabaseFileSystem.write` —
every option-dependent field of the `tus.Upload` construction.  Note the
configuration reads `options.append` (the `x-upsert` header) but never
`options.start`. -/
structure TusUploadConfig where
  retryDelays : List Nat
  upsertHeader : Bool
  bucketName : String
  objectName : String
  contentType : String
  chunkSize : Nat
  uploadLengthDeferred : Bool
  deriving Repr, DecidableEq

/-- `SupabaseFileSystem.write`'s upload construction as a function of its
inputs (the fetched environment endpoint and auth header are fixed
strings and omitted). -/
def supabaseWriteConfig (bucketName fsPath contentType : String)
    (options : Option WriteOptions) : TusUploadConfig :=
  let opts := effectiveWriteOptions options
  { retryDelays := [0, 3000, 5000, 10000, 20000]
    upsertHeader := opts.append = some true
    bucketName
    objectName := fsPath
    contentType
    chunkSize := 6 * 1024 * 1024
    uploadLengthDeferred := true }

end StorWrite

namespace Rnto

/-- The RNTO handler (`rnto.ts`) reduced to the observables of the
claims: the reply code and the session's `renameFrom` field after the
handler settles.  The early returns (`!this.renameFrom` → 503, no
filesystem → 550, no `rename` → 402, missing argument → 503) bypass the
final `.then(() => { this.renameFrom = null })` of the promise chain,
which runs only when `fs.rename` is attempted. -/
def rntoRun (renameFrom : Option String) (hasFs hasRename : Bool)
    (arg : Option String) (renameOk : Bool) : Nat × Option String :=
  match renameFrom with
  | none => (503, none)
  | some src =>
    if ¬hasFs then (550, some src)
    else if ¬hasRename then (402, some src)
    else
      match arg with
      | none => (503, some src)
      | some _ => (if renameOk then 250 else 550, none)

end Rnto

namespace SupaList

/-- A Supabase storage `list` item: objects carry `metadata` (with a
size), emulated sub-directories come back without `metadata`. -/
structure StorageItem where
  name : String
  metadata : Option Nat
  updatedAt : Option Nat
  createdAt : Option Nat
  deriving Repr, DecidableEq

/-- The `{data, error}` shape of a Supabase storage call, plus the thrown
exception the `try` block can surface. -/
inductive StorageResult where
  | failure (msg : String)
  | success (data : Option (List StorageItem))
  deriving Repr, DecidableEq

/-- The `FileStats` record assembled by `createFileStats`. -/
structure FileStats where
  name : String
  size : Nat
  mtimeMs : Nat
  mode : Nat
  isDirectory : Bool
  deriving Repr, DecidableEq

/-- `createDate`: `new Date(item.updated_at || item.created_at ||
Date.now())`. -/
def createDate (updatedAt createdAt : Option Nat) (now : Nat) : Nat :=
  updatedAt.getD (createdAt.getD now)

/-- The `try` body of `SupabaseFileSystem.list`: throw on a storage
error, return `[]` on null data, otherwise filter hidden names (unless
`showHidden`) and map every item to `FileStats`; a sub-directory's mtime
comes from `getDirectoryMtimes` (placeholder lookup, `Date.now()`
fallback), modelled by the `dirMtime` map. -/
def listBody (res : StorageResult) (showHidden : Bool) (now : Nat)
    (dirMtime : String → Option Nat) : Except String (List FileStats) :=
  match res with
  | .failure msg => .error ("Failed to list directory: " ++ msg)
  | .success none => .ok []
  | .success (some data) =>
    .ok ((data.filter (fun i => showHidden || !(i.name.startsWith "."))).map
      (fun i =>
        let isDir := i.metadata.isNone
        { name := i.name
          size := i.metadata.getD 0
          mtimeMs :=
            if isDir then (dirMtime i.name).getD now
            else createDate i.updatedAt i.createdAt now
          mode := if isDir then 0o755 else 0o644
          isDirectory := isDir }))

/-- `SupabaseFileSystem.list` with its catch-all: any thrown error is
logged and replaced by `[]`. -/
def listRun (res : StorageResult) (showHidden : Bool) (now : Nat)
    (dirMtime : String → Option Nat) : List FileStats :=
  match listBody res showHidden now dirMtime with
  | .error _ => []
  | .ok l => l

end SupaList

namespace Opts

/-- The slice of session state the OPTS handler mutates. -/
structure OptsState where
  encoding : String
  listFormat : String
  deriving Repr, DecidableEq

/-- An OPTS reply: code, optional message, resulting session state. -/
structure OptsReply where
  code : Nat
  message : Option String
  state : OptsState
  deriving Repr, DecidableEq

/-- The `utf8` option handler: `ON` → `utf8`, `OFF` → `ascii`, anything
else → 501 `Unknown setting for option`. -/
def utf8Opt (args : List (List Char)) (st : OptsState) : OptsReply :=
  let setting := args.headD []
  let upper := setting.map Char.toUpper
  if upper = "ON".data then
    ⟨200, some ("UTF8 encoding " ++ String.mk (setting.map Char.toLower)),
      { st with encoding := "utf8" }⟩
  else if upper = "OFF".data then
    ⟨200, some ("UTF8 encoding " ++ String.mk (setting.map Char.toLower)),
      { st with encoding := "ascii" }⟩
  else ⟨501, some "Unknown setting for option", st⟩

/-- The `listOpts` option handler: `-E` → EPLF, `-L` → standard,
anything else → 501 `Unknown LIST option`. -/
def listOpt (allArgs : List (List Char)) (st : OptsState) : OptsReply :=
  let setting := (allArgs.headD []).map Char.toUpper
  if setting = "-E".data then
    ⟨200, some "EPLF format enabled", { st with listFormat := "ep" }⟩
  else if setting = "-L".data then
    ⟨200, some "Standard format enabled", { st with listFormat := "ls" }⟩
  else ⟨501, some "Unknown LIST option", st⟩

/-- The OPTS handler (`opts.ts`, newest revision): its `OPTIONS` table
holds exactly `UTF8`, `UTF-8` and `LIST`; the first space-token of the
argument is uppercased and looked up, and an unknown option name is
answered `501 Unknown option command`. -/
def optsRun (arg : Option (List Char)) (flags : List (List Char))
    (st : OptsState) : OptsReply :=
  match arg with
  | none => ⟨501, none, st⟩
  | some a =>
    if a = [] then ⟨501, none, st⟩
    else
      let parts := a.splitOn ' '
      let args := parts.tail
      let option := (parts.headD []).map Char.toUpper
      if option = "UTF8".data ∨ option = "UTF-8".data then utf8Opt args st
      else if option = "LIST".data then listOpt (args ++ flags) st
      else ⟨501, some "Unknown option command", st⟩

end Opts

namespace PortEprt

/-- `ActiveConnector.setupConnection` reduced to its two checks: the
peer-address comparison (`isEqual(remoteAddress, host)`, throwing a
`SocketError` with FTP code 500 on mismatch) and the outcome of the
outbound TCP connect (whose socket errors carry no numeric FTP code,
hence `none`). -/
def setupConnection (addressMatch connectOk : Bool) : Except (Option Nat) Unit :=
  if ¬addressMatch then .error (some 500)
  else if connectOk then .ok () else .error none

/-- The argument validation of the PORT handler: split the argument on
commas into six decimal numbers, recombine the last two into the data
port and range-check it.  Failed checks carry the reply code the handler
returns for them (all 425). -/
def portParse (arg : Option (List Char)) : Except Nat (List Int × Int) :=
  let rawConnection := (arg.getD []).splitOn ','
  if rawConnection.length ≠ 6 then .error 425
  else
    let numericParts := rawConnection.map Js.parseIntDec
    if numericParts.any Option.isNone then .error 425
    else
      let ns := numericParts.map (fun x => x.getD 0)
      let targetPort := ns.getD 4 0 * 256 + ns.getD 5 0
      if targetPort < 1 ∨ targetPort > 65535 then .error 425
      else .ok (ns.take 4, targetPort)

/-- The PORT handler (`port.ts`): on a validation failure reply with the
parse error's code; otherwise run `setupConnection` and reply 200 on
success or `err.code || 425` on failure (the address-mismatch
`SocketError` carries code 500). -/
def portRun (arg : Option (List Char)) (addressMatch connectOk : Bool) : Nat :=
  match portParse arg with
  | .error code => code
  | .ok _ =>
    match setupConnection addressMatch connectOk with
    | .ok _ => 200
    | .error c => c.getD 425

/-- The argument validation of the EPRT handler: `|proto|addr|port|`
framing, protocol 1 → IPv4 / 2 → IPv6 (anything else → 522), decimal
port in 1..65535.  Errors carry the handler's reply code and message. -/
def eprtParse (arg : Option (List Char)) :
    Except (Nat × Option String) (Nat × List Char × Int) :=
  let a := arg.getD []
  if ¬(a.head? = some '|') ∨ ¬(a.getLast? = some '|') then
    .error (501, some "Invalid EPRT format")
  else
    let parts := a.splitOn '|'
    if parts.length ≠ 5 then .error (501, some "Invalid EPRT format")
    else
      let protocol := parts.getD 1 []
      let ip := parts.getD 2 []
      let portStr := parts.getD 3 []
      if protocol = [] ∨ ip = [] ∨ portStr = [] then
        .error (501, some "Invalid EPRT format")
      else
        let family : Option Nat :=
          if protocol = "1".data then some 4
          else if protocol = "2".data then some 6
          else none
        match family with
        | none => .error (522, some "Network protocol not supported")
        | some fam =>
          match Js.parseIntDec portStr with
          | none => .error (501, some "Invalid port number")
          | some p =>
            if p < 1 ∨ p > 65535 then .error (501, some "Invalid port number")
            else .ok (fam, Js.jsTrim ip, p)

/-- The EPRT handler (`eprt.ts`): reply with the parse error on a
validation failure; otherwise run `setupConnection` and reply
`200 EPRT command successful` on success — but on ANY setup failure,
address mismatch included, the catch clause replies
`425 Can't open data connection`, discarding the error's own code. -/
def eprtRun (arg : Option (List Char)) (addressMatch connectOk : Bool) :
    Nat × Option String :=
  match eprtParse arg with
  | .error e => e
  | .ok _ =>
    match setupConnection addressMatch connectOk with
    | .ok _ => (200, some "EPRT command successful")
    | .error _ => (425, some "Can't open data connection")

end PortEprt

namespace Dispatch

/-- The command registry assembled by `registry.ts`, reduced to what the
dispatcher consults: every registered directive alias with its `no_auth`
flag (every entry has a handler).  Entries in the order of the `commands`
array; aliases expand like the `aliases.forEach` fold. -/
def srcRegistry : List (String × Bool) :=
  [("ABOR", false), ("ALLO", false), ("APPE", false), ("AUTH", true),
   ("CDUP", false), ("XCUP", false), ("CWD", false), ("XCWD", false),
   ("DELE", false), ("EPRT", false), ("EPSV", false), ("FEAT", true),
   ("HELP", true), ("LIST", false), ("MDTM", false), ("MKD", false),
   ("XMKD", false), ("MLSD", false), ("MLST", false), ("MODE", false),
   ("NLST", false), ("NOOP", true), ("OPTS", false), ("PASS", true),
   ("PASV", false), ("PBSZ", true), ("PORT", false), ("PWD", false),
   ("XPWD", false), ("QUIT", true), ("REST", false), ("RETR", false),
   ("RMD", false), ("XRMD", false), ("RNFR", false), ("RNTO", false),
   ("SITE", false), ("SIZE", false), ("STAT", false), ("STOR", false),
   ("STOU", false), ("STRU", false), ("SYST", true), ("TYPE", false)]

/-- Modelled from the spec: the registration modules `user.js` and
`prot.js` are imported by `registry.ts` but their source files are
missing from the tree.  Per the spec's pre-authentication directive list
(I6: USER, PASS, QUIT, HELP, FEAT, AUTH, NOOP, PBSZ, PROT, OPTS) both
USER and PROT carry the `no_auth` flag. -/
def modelledRegistry : List (String × Bool) :=
  [("USER", true), ("PROT", true)]

/-- The full registry map (directive alias → `no_auth`). -/
def registry : List (String × Bool) := srcRegistry ++ modelledRegistry

/-- Registry lookup (`REGISTRY[command.directive]`). -/
def lookupEntry (d : String) : Option Bool :=
  (registry.find? (fun e => e.1 == d)).map (fun e => e.2)

/-- What the dispatcher does with a parsed directive. -/
inductive DispatchResult where
  | reply (code : Nat)
  | invoke (directive : String)
  deriving Repr, DecidableEq

/-- `Commands.handle` after parsing: unknown directive → 502,
blacklisted → 502, not on a non-empty whitelist → 502, not `no_auth`
while unauthenticated → 530 (handler not invoked), otherwise the handler
is invoked. -/
def handle (authenticated : Bool) (blacklist whitelist : List String)
    (d : String) : DispatchResult :=
  match lookupEntry d with
  | none => .reply 502
  | some noAuth =>
    if blacklist.contains d then .reply 502
    else if whitelist ≠ [] ∧ ¬whitelist.contains d then .reply 502
    else if ¬noAuth ∧ ¬authenticated then .reply 530
    else .invoke d

/-- The directive set the claim asserts is flagged `no_auth`. -/
def claimedNoAuthSet : List String :=
  ["USER", "PASS", "QUIT", "HELP", "FEAT", "AUTH", "NOOP", "PBSZ", "PROT", "OPTS"]

/-- The directives actually flagged `no_auth` in the registry. -/
def codeNoAuthSet : List String :=
  (registry.filter (fun e => e.2)).map (fun e => e.1)

end Dispatch

namespace Parser

/-- Survivors of the sanitization regex `[^\x20-\x7E\r\n]` (printable
ASCII, carriage return, line feed). -/
def keepPrintable (c : Char) : Bool :=
  (0x20 ≤ c.toNat ∧ c.toNat ≤ 0x7E) ∨ c = '\r' ∨ c = '\n'

/-- The sanitization pipeline of `Commands.parse`: strip characters
outside the printable range, strip every double quote, trim. -/
def sanitize (msg : List Char) : List Char :=
  Js.jsTrim ((msg.filter keepPrintable).filter (fun c => c ≠ '"'))

/-- A parsed command record. -/
structure ParsedCommand where
  directive : List Char
  arg : Option (List Char)
  flags : List (List Char)
  raw : List Char
  deriving Repr, DecidableEq

/-- `\w` of the flag regex `^-\w$`. -/
def isWordChar (c : Char) : Bool :=
  ('A' ≤ c ∧ c ≤ 'Z') ∨ ('a' ≤ c ∧ c ≤ 'z') ∨ ('0' ≤ c ∧ c ≤ '9') ∨ c = '_'

/-- A token matching the command-flag regex `^-\w$`. -/
def isFlagToken (t : List Char) : Bool :=
  match t with
  | ['-', c] => isWordChar c
  | _ => false

/-- Uppercase ASCII letter (the directive regex `^[A-Z]+$`). -/
def isUpperAZ (c : Char) : Bool := 'A' ≤ c ∧ c ≤ 'Z'

/-- `Commands.parse`: length check on the raw message, sanitization,
single-space tokenization, directive extraction/validation, and the
flag/argument fold (flags recognized except for RETR, SIZE, STOR). -/
def parse (msg : List Char) : Except String ParsedCommand :=
  if msg = [] ∨ msg.length > 512 then .error "Invalid command length"
  else
    let sanitized := sanitize msg
    if sanitized = [] then .error "Empty command"
    else
      let tokens := sanitized.splitOn ' '
      let directive := (Js.jsTrim (tokens.headD [])).map Char.toUpper
      if directive = [] ∨ directive.length > 4 then .error "Invalid command directive"
      else if ¬directive.all isUpperAZ then .error "Invalid command format"
      else
        let args := tokens.tail
        let parseCommandFlags :=
          ¬(directive = "RETR".data ∨ directive = "SIZE".data ∨ directive = "STOR".data)
        let params := args.foldl
          (fun (p : List (List Char) × List (List Char)) param =>
            if parseCommandFlags ∧ isFlagToken param then (p.1, p.2 ++ [param])
            else (p.1 ++ [param], p.2))
          ([], [])
        .ok { directive
              arg := if params.1 = [] then none else some ([' '].intercalate params.1)
              flags := params.2
              raw := sanitized }

end Parser

namespace ResolvePath

/-- The separator class of `normalizePath`'s regex `[/\\]+`. -/
def isPathSep (c : Char) : Bool := c = '/' ∨ c = '\\'

/-- Scanner for the regex replacement `replace(/[/\\]+/g, '/')`:
`inRun` records whether the previous character belonged to a separator
run (whose later characters are dropped). -/
def collapseAux (inRun : Bool) : List Char → List Char
  | [] => []
  | c :: rest =>
    if isPathSep c then
      if inRun then collapseAux true rest
      else '/' :: collapseAux true rest
    else c :: collapseAux false rest

/-- `replace(/[/\\]+/g, '/')`: every maximal run of slashes and
backslashes becomes a single forward slash. -/
def collapse (l : List Char) : List Char := collapseAux false l

/-- `replace(/^\/+|\/+$/g, '')`: strip the leading and the trailing run
of forward slashes. -/
def stripSlashes (l : List Char) : List Char :=
  ((l.dropWhile (fun c => c = '/')).reverse.dropWhile (fun c => c = '/')).reverse

/-- `SupabaseFileSystem.normalizePath`. -/
def normalizePath (l : List Char) : List Char :=
  Js.jsTrim (stripSlashes (collapse l))

/-- `split('/').filter(Boolean)`: the nonempty slash-separated segments
of a path. -/
def segsOf (l : List Char) : List (List Char) :=
  (l.splitOn '/').filter (fun s => s ≠ [])

/-- One iteration of `_resolvePath`'s segment loop: `..` pops (never past
the root), `.` is dropped, anything else is pushed. -/
def resolveStep (acc : List (List Char)) (seg : List Char) : List (List Char) :=
  if seg = "..".data then acc.dropLast
  else if seg = ".".data then acc
  else acc ++ [seg]

/-- The full segment loop over `safeSegments`. -/
def resolveSafe (segs : List (List Char)) : List (List Char) :=
  segs.foldl resolveStep []

/-- The `bucketPrefix` computed by the `SupabaseFileSystem` constructor:
everything after the bucket name in the normalized root, rejoined with
slashes. -/
def mkBucketPrefix (root : List Char) : List Char :=
  ['/'].intercalate ((segsOf (normalizePath root)).drop 1)

/-- The string whose segments feed the segment loop in `_resolvePath`'s
main branch: the normalized `dir` when `dir` starts with `/`, otherwise
the normalization of `cwd + '/' + normalizedDir`. -/
def mainT (cwd dir : List Char) : List Char :=
  if dir.head? = some '/' then normalizePath dir
  else normalizePath (cwd ++ '/' :: normalizePath dir)

/-- `SupabaseFileSystem._resolvePath` as a function of the configured
bucket prefix, the session `cwd` and the argument: returns
`(clientPath, fsPath)`.  The first branch (argument normalizing to `.`
or the empty string) returns `cwd` verbatim; the main branch resolves
`.`/`..` at segment level and re-prefixes. -/
def resolvePathFn (bucketPrefix cwd dir : List Char) : List Char × List Char :=
  let normalizedDir := normalizePath dir
  if normalizedDir = ".".data ∨ normalizedDir = [] then
    let fsPath0 :=
      if cwd = "/".data then bucketPrefix
      else normalizePath (cwd.dropWhile (fun c => c = '/'))
    let fsPath :=
      if bucketPrefix ≠ [] ∧ fsPath0 ≠ [] ∧ fsPath0 ≠ bucketPrefix then
        bucketPrefix ++ '/' :: fsPath0
      else if bucketPrefix ≠ [] then bucketPrefix
      else fsPath0
    (cwd, fsPath)
  else
    let clientPath0 :=
      if dir.head? = some '/' then '/' :: normalizedDir
      else '/' :: normalizePath (cwd ++ '/' :: normalizedDir)
    let safe := resolveSafe (segsOf clientPath0)
    let clientPath := '/' :: ['/'].intercalate safe
    let fsPath0 := normalizePath (clientPath.dropWhile (fun c => c = '/'))
    let fsPath :=
      if bucketPrefix ≠ [] then
        bucketPrefix ++ (if fsPath0 ≠ [] then '/' :: fsPath0 else [])
      else fsPath0
    (clientPath, fsPath)

/-- A segment with no leading or trailing JavaScript whitespace — i.e.
one the whitespace trim inside `normalizePath` leaves alone. -/
def noWsEnds (s : List Char) : Bool :=
  s.head?.all (fun d => !Js.isJsWs d) && s.getLast?.all (fun d => !Js.isJsWs d)

/-- A well-formed resolved path segment: nonempty, free of separators,
not `.` or `..`, and without whitespace padding.  Segments of the
`clientPath`s `_resolvePath` itself produces have this shape whenever no
whitespace-padded segment is involved. -/
def goodSeg (s : List Char) : Bool :=
  s ≠ [] ∧ ('/' ∉ s) ∧ ('\\' ∉ s) ∧ s ≠ ".".data ∧ s ≠ "..".data ∧ noWsEnds s

/-- A `cwd` that is itself a resolved path: `'/'` followed by
slash-joined well-formed segments (this is what `chdir` stores). -/
def goodCwd (cwd : List Char) (css : List (List Char)) : Prop :=
  cwd = '/' :: ['/'].intercalate css ∧ css.all goodSeg = true

end ResolvePath

/-! ## Theorems -/

namespace Netmask

theorem land_land_self (x y : Nat) : Nat.land (Nat.land x y) y = Nat.land x y := by
  show (x &&& y) &&& y = x &&& y
  rw [Nat.and_assoc, Nat.and_self]

theorem land_le_right (x y : Nat) : Nat.land x y ≤ y := by
  show x &&& y ≤ y
  exact Nat.and_le_right

theorem maskLongOfBitmask_lt (m : Nat) : maskLongOfBitmask m < 2 ^ 32 := by
  unfold maskLongOfBitmask
  split
  · exact Nat.mod_lt _ (by norm_num)
  · exact Nat.pos_pow_of_pos 32 (by norm_num)

end Netmask

/-- C8: for every valid IPv4 address (four octets, each at most 255) and
every CIDR mask `m ≤ 32`, constructing `Netmask(a, m)` succeeds and
`contains(a)` on the resulting network returns `true`: masking an address
and testing the address against the masked network round-trips. -/
theorem netmask_contains_roundtrip (a b c d m : Nat)
    (_ha : a ≤ 255) (_hb : b ≤ 255) (_hc : c ≤ 255) (_hd : d ≤ 255) (hm : m ≤ 32) :
    ∃ n, Netmask.netmaskNew (Netmask.ip2long a b c d) m = some n ∧
      Netmask.contains n (Netmask.ip2long a b c d) = true := by
  refine ⟨⟨m, Netmask.maskLongOfBitmask m,
      Netmask.u32 (Nat.land (Netmask.ip2long a b c d) (Netmask.maskLongOfBitmask m))⟩, ?_, ?_⟩
  · unfold Netmask.netmaskNew
    rw [if_neg (by omega)]
  · simp only [Netmask.contains, Netmask.u32, beq_iff_eq]
    set ip := Netmask.ip2long a b c d with hip
    set mask := Netmask.maskLongOfBitmask m with hmask
    have hmlt : mask < 2 ^ 32 := Netmask.maskLongOfBitmask_lt m
    have hland : Nat.land ip mask < 2 ^ 32 :=
      Nat.lt_of_le_of_lt (Netmask.land_le_right ip mask) hmlt
    have h1 : Nat.land ip mask % 2 ^ 32 = Nat.land ip mask := Nat.mod_eq_of_lt hland
    rw [h1, Netmask.land_land_self]
    exact h1.symm

/-- Witness for `netmask_contains_roundtrip` at the concrete address
`192.168.1.77` with mask `/24`. -/
theorem netmask_contains_roundtrip_witness :
    ∃ n, Netmask.netmaskNew (Netmask.ip2long 192 168 1 77) 24 = some n ∧
      Netmask.contains n (Netmask.ip2long 192 168 1 77) = true :=
  netmask_contains_roundtrip 192 168 1 77 24
    (by decide) (by decide) (by decide) (by decide) (by decide)

/-- C3 counterexample: a STOR that times out waiting for the data
connection replies 425 and leaves the session's REST byte count at its
prior value 1024 instead of resetting it to 0. -/
theorem rest_not_reset_on_timeout_counterexample :
    Transfer.storRun true true (some "big.bin") 1024 Transfer.Outcome.waitTimeout
      = (425, 1024) ∧ (1024 : Nat) ≠ 0 :=
  ⟨rfl, by decide⟩

/-- C3 (amended): for STOR, RETR and APPE (with a filesystem attached and
an argument present), the REST byte count is reset to 0 exactly when the
handler survives `waitForConnection` and the filesystem-stream open (the
paths replying 226, or 550 for an error after the 150 reply); on the 425
timeout reply and on 550 replies raised before the stream is open, the
REST byte count is left unchanged. -/
theorem rest_reset_after_transfer (f : String) (rest : Nat) (o : Transfer.Outcome) :
    (Transfer.storRun true true (some f) rest o).2 = Transfer.restAfter rest o ∧
    (Transfer.retrRun true true (some f) rest o).2 = Transfer.restAfter rest o ∧
    (Transfer.appeRun true true (some f) rest o).2 = Transfer.restAfter rest o := by
  cases o <;>
    simp [Transfer.storRun, Transfer.retrRun, Transfer.appeRun, Transfer.restAfter]

/-- C4: with the session's REST byte count at 1024, the STOR handler
calls `fs.write("big.bin")` with no options object at all — no `start`
offset — while the sibling APPE handler does forward
`{ append: true, start: 1024 }`; moreover `SupabaseFileSystem.write`'s
upload configuration never reads `options.start`, so no write ever starts
at the REST offset. -/
theorem stor_write_drops_rest_offset :
    StorWrite.storWriteArgs "big.bin" 1024 = ("big.bin", none) ∧
    StorWrite.appeWriteArgs "big.bin" 1024 = ("big.bin", some ⟨some true, some 1024⟩) ∧
    (∀ b p ct append s s',
      StorWrite.supabaseWriteConfig b p ct (some ⟨append, s⟩) =
        StorWrite.supabaseWriteConfig b p ct (some ⟨append, s'⟩)) :=
  ⟨rfl, rfl, fun _ _ _ _ _ _ => rfl⟩

/-- C6 counterexample: RNTO with `renameFrom = "a.txt"` and a missing
argument replies 503 via an early return that bypasses the clearing
step, leaving `renameFrom = "a.txt"` instead of null. -/
theorem rnto_missing_arg_counterexample :
    Rnto.rntoRun (some "a.txt") true true none true = (503, some "a.txt") ∧
      (some "a.txt" : Option String) ≠ none :=
  ⟨rfl, by simp⟩

/-- C6 (amended): after RNTO completes with 250 (success) or 550 (rename
failure) the session's `renameFrom` is null, and it is null after the 503
for a missing `renameFrom`; but the 503 rejection for a missing argument
leaves `renameFrom` unchanged. -/
theorem rnto_renameFrom_after (src dst : String) (ok : Bool) :
    (Rnto.rntoRun (some src) true true (some dst) ok).2 = none ∧
    (Rnto.rntoRun (some src) true true (some dst) ok).1 = (if ok then 250 else 550) ∧
    Rnto.rntoRun (some src) true true none ok = (503, some src) ∧
    Rnto.rntoRun none true true (some dst) ok = (503, none) := by
  cases ok <;> exact ⟨rfl, rfl, rfl, rfl⟩

/-- C10: `SupabaseFileSystem.list` resolves with `[]` whenever the
storage call reports an error (the `try` body throws, the catch-all
returns `[]`) or returns null data, so a listing failure is
indistinguishable at this interface from an empty directory. -/
theorem supabase_list_swallows_errors (msg : String) (sh : Bool) (now : Nat)
    (f : String → Option Nat) :
    SupaList.listRun (SupaList.StorageResult.failure msg) sh now f = [] ∧
    SupaList.listRun (SupaList.StorageResult.success none) sh now f = [] ∧
    SupaList.listRun (SupaList.StorageResult.failure msg) sh now f =
      SupaList.listRun (SupaList.StorageResult.success (some [])) sh now f ∧
    (∃ e, SupaList.listBody (SupaList.StorageResult.failure msg) sh now f =
      Except.error e) :=
  ⟨rfl, rfl, rfl, ⟨_, rfl⟩⟩

/-- C2 counterexample: the rejected claim puts OPTS in the `no_auth` set
and omits SYST.  In the code, OPTS (both shipped revisions of `opts.ts`)
carries no `no_auth` flag — an unauthenticated OPTS is answered 530
without invoking the handler — while SYST is flagged `no_auth`. -/
theorem dispatch_noauth_set_counterexample :
    Dispatch.handle false [] [] "OPTS" = Dispatch.DispatchResult.reply 530 ∧
    "OPTS" ∈ Dispatch.claimedNoAuthSet ∧
    Dispatch.lookupEntry "OPTS" = some false ∧
    Dispatch.lookupEntry "SYST" = some true ∧
    "SYST" ∉ Dispatch.claimedNoAuthSet := by
  refine ⟨by decide, by decide, by decide, by decide, by decide⟩

/-- C2 (amended): on an unauthenticated session (with empty black- and
whitelists) the dispatcher invokes a registered directive's handler iff
its registry entry carries `no_auth` and replies 530 otherwise, and the
set of directives flagged `no_auth` is {AUTH, FEAT, HELP, NOOP, PASS,
PBSZ, QUIT, SYST, USER, PROT} (USER and PROT modelled from the spec,
their registration files being absent): the claimed set gains SYST and
loses OPTS. -/
theorem dispatch_noauth_gate (d : String) (b : Bool)
    (h : Dispatch.lookupEntry d = some b) :
    Dispatch.handle false [] [] d =
      (if b then Dispatch.DispatchResult.invoke d else Dispatch.DispatchResult.reply 530) ∧
    Dispatch.codeNoAuthSet =
      ["AUTH", "FEAT", "HELP", "NOOP", "PASS", "PBSZ", "QUIT", "SYST", "USER", "PROT"] := by
  constructor
  · unfold Dispatch.handle
    rw [h]
    cases b <;> simp
  · decide

/-- Witness for `dispatch_noauth_gate` at the directive SYST. -/
theorem dispatch_noauth_gate_witness :
    Dispatch.handle false [] [] "SYST" =
      (if true then Dispatch.DispatchResult.invoke "SYST" else Dispatch.DispatchResult.reply 530) ∧
    Dispatch.codeNoAuthSet =
      ["AUTH", "FEAT", "HELP", "NOOP", "PASS", "PBSZ", "QUIT", "SYST", "USER", "PROT"] :=
  dispatch_noauth_gate "SYST" true (by decide)

/-- C7 counterexample: `OPTS MLST Type;Size;Modify` is answered with the
501 `Unknown option command` rejection — the handler's option table has
no MLST entry — leaving the session state untouched. -/
theorem opts_mlst_counterexample :
    Opts.optsRun (some "MLST Type;Size;Modify".data) [] ⟨"utf8", "ls"⟩ =
      ⟨501, some "Unknown option command", ⟨"utf8", "ls"⟩⟩ := rfl

/-- C7 (amended): the OPTS handler's option table holds exactly UTF8,
UTF-8 and LIST.  `OPTS MLST <anything>` is answered with the 501
`Unknown option command` rejection given to unrecognized option names,
while `OPTS UTF8 ON|OFF` toggles the session encoding and
`OPTS LIST -E|-L` switches the list format. -/
theorem opts_option_table (rest : List Char) (flags : List (List Char))
    (st : Opts.OptsState) :
    Opts.optsRun (some ("MLST ".data ++ rest)) flags st =
      ⟨501, some "Unknown option command", st⟩ ∧
    Opts.optsRun (some "UTF8 ON".data) flags st =
      ⟨200, some "UTF8 encoding on", { st with encoding := "utf8" }⟩ ∧
    Opts.optsRun (some "UTF8 OFF".data) flags st =
      ⟨200, some "UTF8 encoding off", { st with encoding := "ascii" }⟩ ∧
    Opts.optsRun (some "LIST -E".data) flags st =
      ⟨200, some "EPLF format enabled", { st with listFormat := "ep" }⟩ ∧
    Opts.optsRun (some "LIST -L".data) flags st =
      ⟨200, some "Standard format enabled", { st with listFormat := "ls" }⟩ := by
  refine ⟨?_, rfl, rfl, rfl, rfl⟩
  have hsplit : ((['M', 'L', 'S', 'T', ' '] : List Char) ++ rest).splitOn ' ' =
      ['M', 'L', 'S', 'T'] :: rest.splitOn ' ' := by
    show List.splitOnP (· == ' ') ("MLST".data ++ ' ' :: rest) =
      "MLST".data :: List.splitOnP (· == ' ') rest
    exact List.splitOnP_first (· == ' ') "MLST".data
      (fun x hx => by fin_cases hx <;> decide) ' ' (by decide) rest
  simp only [Opts.optsRun]
  rw [hsplit]
  simp

/-- C5 counterexample: an EPRT command with a well-formed argument whose
address does not match the control-connection peer is answered 425 — the
EPRT catch clause discards the 500 `SocketError` raised by the address
check — not 500 as claimed. -/
theorem eprt_mismatch_replies_425_counterexample :
    PortEprt.eprtRun (some "|1|192.168.1.100|20|".data) false true =
      (425, some "Can't open data connection") ∧ (425 : Nat) ≠ 500 :=
  ⟨rfl, by decide⟩

/-- C5 (amended): for every PORT and EPRT command whose argument passes
validation, an address mismatch is rejected — PORT propagates the
`SocketError`'s code and replies 500, but EPRT's catch clause replies 425
regardless of the error — and when the address matches and the outbound
connection succeeds, both reply 200. -/
theorem port_eprt_address_check (argP argE : Option (List Char))
    (pdP : List Int × Int) (pdE : Nat × List Char × Int) (c : Bool)
    (hP : PortEprt.portParse argP = Except.ok pdP)
    (hE : PortEprt.eprtParse argE = Except.ok pdE) :
    PortEprt.portRun argP false c = 500 ∧
    PortEprt.portRun argP true true = 200 ∧
    PortEprt.eprtRun argE false c = (425, some "Can't open data connection") ∧
    PortEprt.eprtRun argE true true = (200, some "EPRT command successful") := by
  unfold PortEprt.portRun PortEprt.eprtRun
  rw [hP, hE]
  refine ⟨?_, rfl, ?_, rfl⟩ <;> simp [PortEprt.setupConnection]

/-- Witness for `port_eprt_address_check` at
`PORT 192,168,1,100,0,20` and `EPRT |1|192.168.1.100|20|`. -/
theorem port_eprt_address_check_witness :
    PortEprt.portRun (some "192,168,1,100,0,20".data) false false = 500 ∧
    PortEprt.portRun (some "192,168,1,100,0,20".data) true true = 200 ∧
    PortEprt.eprtRun (some "|1|192.168.1.100|20|".data) false false =
      (425, some "Can't open data connection") ∧
    PortEprt.eprtRun (some "|1|192.168.1.100|20|".data) true true =
      (200, some "EPRT command successful") :=
  port_eprt_address_check (some "192,168,1,100,0,20".data)
    (some "|1|192.168.1.100|20|".data)
    ([192, 168, 1, 100], 20) (4, "192.168.1.100".data, 20) false
    rfl rfl

namespace Js

theorem mem_jsTrim {c : Char} {l : List Char} (h : c ∈ jsTrim l) : c ∈ l := by
  unfold jsTrim at h
  rw [List.mem_reverse] at h
  have h2 := (List.dropWhile_sublist (p := isJsWs)
    (l := (l.dropWhile isJsWs).reverse)).mem h
  rw [List.mem_reverse] at h2
  exact (List.dropWhile_sublist (p := isJsWs) (l := l)).mem h2

end Js

theorem mem_of_mem_splitOn {c : Char} {t : List Char} {sep : Char} {l : List Char}
    (ht : t ∈ l.splitOn sep) (hc : c ∈ t) : c ∈ l := by
  induction l generalizing t with
  | nil =>
    simp only [List.splitOn, List.splitOnP_nil, List.mem_singleton] at ht
    subst ht; exact absurd hc (List.not_mem_nil c)
  | cons x xs ih =>
    rw [List.splitOn, List.splitOnP_cons] at ht
    by_cases hx : (x == sep) = true
    · rw [if_pos hx] at ht
      rcases List.mem_cons.mp ht with h | h
      · subst h; exact absurd hc (List.not_mem_nil c)
      · exact List.mem_cons_of_mem x (ih h hc)
    · rw [if_neg hx] at ht
      rcases hsp : xs.splitOn sep with _ | ⟨hd, tl⟩
      · rw [List.splitOn] at hsp
        exact absurd hsp (List.splitOnP_ne_nil _ xs)
      · rw [List.splitOn] at hsp
        rw [hsp] at ht
        simp only [List.modifyHead] at ht
        rcases List.mem_cons.mp ht with h | h
        · subst h
          rcases List.mem_cons.mp hc with h | h
          · rw [h]; exact List.mem_cons_self _ _
          · refine List.mem_cons_of_mem x (ih ?_ h)
            rw [List.splitOn, hsp]; exact List.mem_cons_self hd tl
        · refine List.mem_cons_of_mem x (ih ?_ hc)
          rw [List.splitOn, hsp]; exact List.mem_cons_of_mem hd h

theorem intercalate_cons_cons' (sep x y : List Char) (ys : List (List Char)) :
    List.intercalate sep (x :: y :: ys) = x ++ sep ++ List.intercalate sep (y :: ys) := by
  simp [List.intercalate, List.intersperse_cons_cons]

theorem mem_of_mem_intercalate {c : Char} {sep : Char} {L : List (List Char)}
    (h : c ∈ [sep].intercalate L) : c = sep ∨ ∃ l ∈ L, c ∈ l := by
  induction L with
  | nil => simp [List.intercalate] at h
  | cons x xs ih =>
    cases xs with
    | nil =>
      simp [List.intercalate] at h
      exact Or.inr ⟨x, List.mem_cons_self x [], h⟩
    | cons y ys =>
      rw [intercalate_cons_cons'] at h
      rcases List.mem_append.mp h with h | h
      · rcases List.mem_append.mp h with h | h
        · exact Or.inr ⟨x, List.mem_cons_self _ _, h⟩
        · simp at h; exact Or.inl h
      · rcases ih h with h | ⟨l, hl, hcl⟩
        · exact Or.inl h
        · exact Or.inr ⟨l, List.mem_cons_of_mem x hl, hcl⟩

namespace Parser

theorem sanitize_no_quote (msg : List Char) : '"' ∉ sanitize msg := by
  intro h
  have h2 := Js.mem_jsTrim h
  have h3 := List.of_mem_filter h2
  simp at h3

theorem mem_foldl_classify (cond : Prop) [Decidable cond] (flagTok : List Char → Bool)
    (args : List (List Char)) (acc : List (List Char) × List (List Char)) :
    ∀ t, (t ∈ (args.foldl
        (fun p param =>
          if cond ∧ flagTok param then (p.1, p.2 ++ [param])
          else (p.1 ++ [param], p.2)) acc).1 ∨
      t ∈ (args.foldl
        (fun p param =>
          if cond ∧ flagTok param then (p.1, p.2 ++ [param])
          else (p.1 ++ [param], p.2)) acc).2) →
      (t ∈ acc.1 ∨ t ∈ acc.2 ∨ t ∈ args) := by
  induction args generalizing acc with
  | nil =>
    intro t ht
    rcases ht with h | h
    · exact Or.inl h
    · exact Or.inr (Or.inl h)
  | cons a as ih =>
    intro t ht
    rw [List.foldl_cons] at ht
    have := ih _ t ht
    by_cases hca : cond ∧ flagTok a = true
    · rw [if_pos hca] at this
      rcases this with h | h | h
      · exact Or.inl h
      · rcases List.mem_append.mp h with h | h
        · exact Or.inr (Or.inl h)
        · simp at h; subst h; exact Or.inr (Or.inr (List.mem_cons_self _ _))
      · exact Or.inr (Or.inr (List.mem_cons_of_mem a h))
    · rw [if_neg hca] at this
      rcases this with h | h | h
      · rcases List.mem_append.mp h with h | h
        · exact Or.inl h
        · simp at h; subst h; exact Or.inr (Or.inr (List.mem_cons_self _ _))
      · exact Or.inr (Or.inl h)
      · exact Or.inr (Or.inr (List.mem_cons_of_mem a h))

end Parser

/-- C9: the parser removes every double-quote character during
sanitization: whenever `parse` succeeds, the directive, the argument, the
flags and the raw line of the parsed command contain no `"` character. -/
theorem parse_strips_quotes (msg : List Char) (c : Parser.ParsedCommand)
    (h : Parser.parse msg = Except.ok c) :
    '"' ∉ c.directive ∧ (∀ a, c.arg = some a → '"' ∉ a) ∧
    (∀ f ∈ c.flags, '"' ∉ f) ∧ '"' ∉ c.raw := by
  unfold Parser.parse at h
  dsimp only at h
  split at h
  · exact absurd h (by simp)
  · split at h
    · exact absurd h (by simp)
    · split at h
      · exact absurd h (by simp)
      · split at h
        · exact absurd h (by simp)
        · next hAZ =>
          rw [Except.ok.injEq] at h
          subst h
          have hsan : '"' ∉ Parser.sanitize msg := Parser.sanitize_no_quote msg
          have hmemtok : ∀ t, t ∈ ((Parser.sanitize msg).splitOn ' ').tail →
              '"' ∈ t → False := by
            intro t ht hq
            exact hsan (mem_of_mem_splitOn ((List.tail_sublist _).mem ht) hq)
          have hfold := Parser.mem_foldl_classify
            (¬((List.map Char.toUpper
                (Js.jsTrim (((Parser.sanitize msg).splitOn ' ').headD []))) = "RETR".data ∨
               (List.map Char.toUpper
                (Js.jsTrim (((Parser.sanitize msg).splitOn ' ').headD []))) = "SIZE".data ∨
               (List.map Char.toUpper
                (Js.jsTrim (((Parser.sanitize msg).splitOn ' ').headD []))) = "STOR".data))
            Parser.isFlagToken ((Parser.sanitize msg).splitOn ' ').tail ([], [])
          refine ⟨?_, ?_, ?_, hsan⟩
          · intro hq
            rw [not_not] at hAZ
            have := List.all_eq_true.mp hAZ _ hq
            simp [Parser.isUpperAZ] at this
          · intro a ha hq
            split at ha
            · exact absurd ha (by simp)
            · rw [Option.some.injEq] at ha
              subst ha
              rcases mem_of_mem_intercalate hq with h' | ⟨t, ht, hqt⟩
              · simp at h'
              · rcases hfold t (Or.inl ht) with h' | h' | h'
                · exact absurd h' (List.not_mem_nil t)
                · exact absurd h' (List.not_mem_nil t)
                · exact hmemtok t h' hqt
          · intro f hf hq
            rcases hfold f (Or.inr hf) with h' | h' | h'
            · exact absurd h' (List.not_mem_nil f)
            · exact absurd h' (List.not_mem_nil f)
            · exact hmemtok f h' hq

/-- Witness for `parse_strips_quotes` on the line
`STOR "my file".txt`: the quotes are silently removed, leaving the
argument `my file.txt`. -/
theorem parse_strips_quotes_witness :
    '"' ∉ (Parser.ParsedCommand.mk "STOR".data (some "my file.txt".data) []
        "STOR my file.txt".data).directive ∧
    (∀ a, (Parser.ParsedCommand.mk "STOR".data (some "my file.txt".data) []
        "STOR my file.txt".data).arg = some a → '"' ∉ a) ∧
    (∀ f ∈ (Parser.ParsedCommand.mk "STOR".data (some "my file.txt".data) []
        "STOR my file.txt".data).flags, '"' ∉ f) ∧
    '"' ∉ (Parser.ParsedCommand.mk "STOR".data (some "my file.txt".data) []
        "STOR my file.txt".data).raw :=
  parse_strips_quotes "STOR \"my file\".txt".data
    (Parser.ParsedCommand.mk "STOR".data (some "my file.txt".data) []
      "STOR my file.txt".data) rfl

/-- C1 counterexample: with bucket root `bucket/p` (prefix `p`) and cwd
`/`, resolving the directory argument `/./ ..` yields
`clientPath = "/ .."` and `fsPath = "p/.."`: the whitespace trim inside
the final `normalizePath` turns the surviving segment `" .."` into a
literal `..`, so the fsPath, read as a path, steps out of the configured
bucket+prefix root. -/
theorem resolvePath_escape_counterexample :
    ResolvePath.mkBucketPrefix "bucket/p".data = "p".data ∧
    ResolvePath.resolvePathFn "p".data "/".data "/./ ..".data =
      ("/ ..".data, "p/..".data) ∧
    "..".data ∈ ResolvePath.segsOf "p/..".data := by
  refine ⟨by decide, by decide, by decide⟩

namespace ResolvePath

theorem not_sep_of_mem_splitOn {t l : List Char} {sep : Char}
    (ht : t ∈ l.splitOn sep) : sep ∉ t := by
  induction l generalizing t with
  | nil =>
    simp only [List.splitOn, List.splitOnP_nil, List.mem_singleton] at ht
    subst ht; exact List.not_mem_nil sep
  | cons x xs ih =>
    rw [List.splitOn, List.splitOnP_cons] at ht
    by_cases hx : (x == sep) = true
    · rw [if_pos hx] at ht
      rcases List.mem_cons.mp ht with h | h
      · subst h; exact List.not_mem_nil sep
      · exact ih h
    · rw [if_neg hx] at ht
      rcases hsp : xs.splitOn sep with _ | ⟨hd, tl⟩
      · rw [List.splitOn] at hsp
        exact absurd hsp (List.splitOnP_ne_nil _ xs)
      · rw [List.splitOn] at hsp
        rw [hsp] at ht
        simp only [List.modifyHead] at ht
        rcases List.mem_cons.mp ht with h | h
        · subst h
          intro hmem
          rcases List.mem_cons.mp hmem with h | h
          · exact hx (by rw [h]; exact beq_self_eq_true x)
          · exact ih (by rw [List.splitOn, hsp]; exact List.mem_cons_self hd tl) h
        · exact ih (by rw [List.splitOn, hsp]; exact List.mem_cons_of_mem hd h)

theorem mem_segsOf_props {s l : List Char} (h : s ∈ segsOf l) :
    s ≠ [] ∧ '/' ∉ s ∧ (∀ c ∈ s, c ∈ l) := by
  unfold segsOf at h
  have h1 := List.mem_of_mem_filter h
  have h2 := List.of_mem_filter h
  refine ⟨by simpa using h2, not_sep_of_mem_splitOn h1, fun c hc => mem_of_mem_splitOn h1 hc⟩

theorem segsOf_cons_slash (l : List Char) : segsOf ('/' :: l) = segsOf l := by
  unfold segsOf
  rw [List.splitOn, List.splitOnP_cons, if_pos (by decide)]
  rw [List.splitOn]
  simp

theorem backslash_not_mem_collapseAux (b : Bool) (l : List Char) :
    '\\' ∉ collapseAux b l := by
  induction l generalizing b with
  | nil => simp [collapseAux]
  | cons c rest ih =>
    unfold collapseAux
    by_cases hc : isPathSep c = true
    · rw [if_pos hc]
      cases b with
      | true => simpa using ih true
      | false =>
        simp only [Bool.false_eq_true, if_false]
        intro hmem
        rcases List.mem_cons.mp hmem with h | h
        · exact absurd h.symm (by decide)
        · exact ih true h
    · rw [if_neg hc]
      intro hmem
      rcases List.mem_cons.mp hmem with h | h
      · subst h; exact hc (by decide)
      · exact ih false h

theorem mem_stripSlashes {c : Char} {l : List Char} (h : c ∈ stripSlashes l) : c ∈ l := by
  unfold stripSlashes at h
  rw [List.mem_reverse] at h
  have h2 := (List.dropWhile_sublist (p := fun c => c = '/')
    (l := (l.dropWhile (fun c => c = '/')).reverse)).mem h
  rw [List.mem_reverse] at h2
  exact (List.dropWhile_sublist (p := fun c => c = '/') (l := l)).mem h2

theorem backslash_not_mem_normalizePath (l : List Char) : '\\' ∉ normalizePath l := by
  intro h
  exact backslash_not_mem_collapseAux false l (mem_stripSlashes (Js.mem_jsTrim h))

theorem dropWhile_eq_self_of_head {p : Char → Bool} {l : List Char}
    (h : ∀ d, l.head? = some d → p d = false) : l.dropWhile p = l := by
  cases l with
  | nil => rfl
  | cons x xs =>
    rw [List.dropWhile_cons, if_neg]
    rw [h x rfl]
    simp

theorem stripSlashes_eq_self {l : List Char}
    (h1 : ∀ d, l.head? = some d → d ≠ '/') (h2 : ∀ d, l.getLast? = some d → d ≠ '/') :
    stripSlashes l = l := by
  unfold stripSlashes
  have hinner : l.dropWhile (fun c => c = '/') = l :=
    dropWhile_eq_self_of_head (fun d hd => by simpa using h1 d hd)
  rw [hinner]
  have houter : l.reverse.dropWhile (fun c => c = '/') = l.reverse :=
    dropWhile_eq_self_of_head (fun d hd => by
      rw [List.head?_reverse] at hd
      simpa using h2 d hd)
  rw [houter]
  exact List.reverse_reverse l

theorem jsTrim_eq_self {l : List Char}
    (h1 : ∀ d, l.head? = some d → Js.isJsWs d = false)
    (h2 : ∀ d, l.getLast? = some d → Js.isJsWs d = false) :
    Js.jsTrim l = l := by
  unfold Js.jsTrim
  have hinner : l.dropWhile Js.isJsWs = l := dropWhile_eq_self_of_head h1
  rw [hinner]
  have houter : l.reverse.dropWhile Js.isJsWs = l.reverse :=
    dropWhile_eq_self_of_head (fun d hd => by
      rw [List.head?_reverse] at hd
      exact h2 d hd)
  rw [houter]
  exact List.reverse_reverse l

end ResolvePath

namespace ResolvePath

theorem intercalate_single (s : List Char) : ['/'].intercalate [s] = s := by
  simp [List.intercalate]

theorem intercalate_cons_eq_append (s : List Char) (ss : List (List Char)) :
    ∃ r, ['/'].intercalate (s :: ss) = s ++ r := by
  cases ss with
  | nil => exact ⟨[], by rw [intercalate_single]; simp⟩
  | cons y ys =>
    refine ⟨'/' :: ['/'].intercalate (y :: ys), ?_⟩
    rw [intercalate_cons_cons']
    simp

theorem head?_intercalate {s : List Char} (ss : List (List Char)) (hs : s ≠ []) :
    (['/'].intercalate (s :: ss)).head? = s.head? := by
  obtain ⟨r, hr⟩ := intercalate_cons_eq_append s ss
  rw [hr]
  cases s with
  | nil => exact absurd rfl hs
  | cons a s' => simp

theorem getLast?_intercalate (ss : List (List Char)) (hne : ss ≠ [])
    (hall : ∀ s ∈ ss, s ≠ []) :
    ∃ s, ss.getLast? = some s ∧ (['/'].intercalate ss).getLast? = s.getLast? := by
  induction ss with
  | nil => exact absurd rfl hne
  | cons x xs ih =>
    cases xs with
    | nil => exact ⟨x, rfl, by rw [intercalate_single]⟩
    | cons y ys =>
      obtain ⟨s, hs1, hs2⟩ := ih (by simp)
        (fun s hs => hall s (List.mem_cons_of_mem x hs))
      refine ⟨s, ?_, ?_⟩
      · rw [List.getLast?_cons_cons]
        exact hs1
      · rw [intercalate_cons_cons', List.append_assoc, List.getLast?_append]
        have : (['/'] ++ ['/'].intercalate (y :: ys)).getLast? =
            (['/'].intercalate (y :: ys)).getLast? := by
          rw [List.getLast?_append]
          obtain ⟨r, hr⟩ := intercalate_cons_eq_append y ys
          have hy : y ≠ [] := hall y (List.mem_cons_of_mem x (List.mem_cons_self y ys))
          cases hyy : ['/'].intercalate (y :: ys) with
          | nil =>
            rw [hr] at hyy
            cases y with
            | nil => exact absurd rfl hy
            | cons a y' => simp at hyy
          | cons a t => simp [List.getLast?_cons]
        rw [this, hs2]
        obtain ⟨r, hr⟩ := intercalate_cons_eq_append y ys
        have hy : y ≠ [] := hall y (List.mem_cons_of_mem x (List.mem_cons_self y ys))
        have hne2 : ['/'].intercalate (y :: ys) ≠ [] := by
          rw [hr]
          cases y with
          | nil => exact absurd rfl hy
          | cons a y' => simp
        have hlast : (['/'].intercalate (y :: ys)).getLast? = s.getLast? := hs2
        rw [← hs2]
        cases hgl : (['/'].intercalate (y :: ys)).getLast? with
        | none => exact absurd (List.getLast?_eq_none_iff.mp hgl) hne2
        | some a => simp [Option.or]

theorem intercalate_ne_nil {s : List Char} (ss : List (List Char)) (hs : s ≠ []) :
    ['/'].intercalate (s :: ss) ≠ [] := by
  obtain ⟨r, hr⟩ := intercalate_cons_eq_append s ss
  rw [hr]
  cases s with
  | nil => exact absurd rfl hs
  | cons a s' => simp

end ResolvePath

namespace ResolvePath

theorem intercalate_append_good (pss safe : List (List Char))
    (h1 : pss ≠ []) (h2 : safe ≠ []) :
    ['/'].intercalate (pss ++ safe) =
      ['/'].intercalate pss ++ '/' :: ['/'].intercalate safe := by
  induction pss with
  | nil => exact absurd rfl h1
  | cons x xs ih =>
    cases xs with
    | nil =>
      cases safe with
      | nil => exact absurd rfl h2
      | cons y ys =>
        rw [List.singleton_append, intercalate_cons_cons', intercalate_single]
        simp
    | cons z zs =>
      have hstep : x :: z :: zs ++ safe = x :: z :: (zs ++ safe) := by simp
      rw [hstep, intercalate_cons_cons']
      have hback : z :: (zs ++ safe) = (z :: zs) ++ safe := by simp
      rw [hback, ih (by simp), intercalate_cons_cons']
      simp

theorem collapseAux_false_sepFree {s : List Char}
    (h : ∀ c ∈ s, isPathSep c = false) : collapseAux false s = s := by
  induction s with
  | nil => rfl
  | cons c rest ih =>
    unfold collapseAux
    rw [if_neg (by rw [h c (List.mem_cons_self c rest)]; simp)]
    rw [ih (fun d hd => h d (List.mem_cons_of_mem c hd))]

theorem collapseAux_false_append_sepFree {s : List Char} (m : List Char)
    (h : ∀ c ∈ s, isPathSep c = false) :
    collapseAux false (s ++ m) = s ++ collapseAux false m := by
  induction s with
  | nil => simp
  | cons c rest ih =>
    have hstep : collapseAux false ((c :: rest) ++ m) =
        c :: collapseAux false (rest ++ m) := by
      rw [List.cons_append]
      simp only [collapseAux]
      rw [if_neg (by rw [h c (List.mem_cons_self c rest)]; simp)]
    rw [hstep, ih (fun d hd => h d (List.mem_cons_of_mem c hd)), List.cons_append]

theorem collapseAux_true_eq_false {l : List Char}
    (h : ∀ d, l.head? = some d → isPathSep d = false) :
    collapseAux true l = collapseAux false l := by
  cases l with
  | nil => rfl
  | cons d l' =>
    unfold collapseAux
    rw [if_neg (by rw [h d rfl]; simp), if_neg (by rw [h d rfl]; simp)]

theorem collapse_intercalate (ss : List (List Char))
    (hall : ∀ s ∈ ss, s ≠ [] ∧ ∀ c ∈ s, isPathSep c = false) :
    collapse (['/'].intercalate ss) = ['/'].intercalate ss := by
  induction ss with
  | nil => rfl
  | cons x xs ih =>
    cases xs with
    | nil =>
      rw [intercalate_single]
      exact collapseAux_false_sepFree (hall x (List.mem_cons_self x [])).2
    | cons y ys =>
      rw [intercalate_cons_cons']
      unfold collapse
      rw [List.append_assoc,
        collapseAux_false_append_sepFree _ (hall x (List.mem_cons_self x _)).2]
      have hy := hall y (List.mem_cons_of_mem x (List.mem_cons_self y ys))
      have hyhead : ∀ d, (['/'].intercalate (y :: ys)).head? = some d →
          isPathSep d = false := by
        intro d hd
        rw [head?_intercalate ys hy.1] at hd
        cases y with
        | nil => exact absurd rfl hy.1
        | cons a y' =>
          simp only [List.head?_cons, Option.some.injEq] at hd
          subst hd
          exact hy.2 a (List.mem_cons_self a y')
      have : collapseAux false (['/'] ++ ['/'].intercalate (y :: ys)) =
          '/' :: collapseAux true (['/'].intercalate (y :: ys)) := by
        simp [collapseAux, isPathSep]
      rw [this, collapseAux_true_eq_false hyhead]
      have ihres := ih (fun s hs => hall s (List.mem_cons_of_mem x hs))
      unfold collapse at ihres
      rw [ihres]
      simp

end ResolvePath

namespace ResolvePath

theorem noWsEnds_head {s : List Char} {d : Char} (h : noWsEnds s = true)
    (hd : s.head? = some d) : Js.isJsWs d = false := by
  unfold noWsEnds at h
  rw [Bool.and_eq_true] at h
  have := h.1
  rw [hd] at this
  simpa using this

theorem noWsEnds_last {s : List Char} {d : Char} (h : noWsEnds s = true)
    (hd : s.getLast? = some d) : Js.isJsWs d = false := by
  unfold noWsEnds at h
  rw [Bool.and_eq_true] at h
  have := h.2
  rw [hd] at this
  simpa using this

theorem segsOf_nil : segsOf [] = [] := rfl

theorem segsOf_intercalate (ss : List (List Char))
    (hall : ∀ s ∈ ss, s ≠ [] ∧ '/' ∉ s) :
    segsOf (['/'].intercalate ss) = ss := by
  cases hss : ss with
  | nil => rfl
  | cons x xs =>
    unfold segsOf
    rw [List.splitOn_intercalate (x :: xs) '/'
      (fun l hl => (hall l (hss ▸ hl)).2) (by simp)]
    exact List.filter_eq_self.mpr
      (fun a ha => decide_eq_true (hall a (hss ▸ ha)).1)

theorem normalize_intercalate (ss : List (List Char))
    (hall : ∀ s ∈ ss, s ≠ [] ∧ (∀ c ∈ s, isPathSep c = false) ∧ noWsEnds s = true) :
    normalizePath (['/'].intercalate ss) = ['/'].intercalate ss := by
  cases hss : ss with
  | nil => rfl
  | cons x xs =>
    have hx := hall x (hss ▸ List.mem_cons_self x xs)
    have hcoll : collapse (['/'].intercalate (x :: xs)) = ['/'].intercalate (x :: xs) :=
      collapse_intercalate (x :: xs) (fun s hs => ⟨(hall s (hss ▸ hs)).1, (hall s (hss ▸ hs)).2.1⟩)
    have hhead : ∀ d, (['/'].intercalate (x :: xs)).head? = some d →
        d ≠ '/' ∧ Js.isJsWs d = false := by
      intro d hd
      rw [head?_intercalate xs hx.1] at hd
      refine ⟨?_, noWsEnds_head hx.2.2 hd⟩
      cases x with
      | nil => exact absurd rfl hx.1
      | cons a x' =>
        simp only [List.head?_cons, Option.some.injEq] at hd
        have ha := hx.2.1 a (List.mem_cons_self a x')
        intro hcon
        rw [hd, hcon] at ha
        simp [isPathSep] at ha
    have hlast : ∀ d, (['/'].intercalate (x :: xs)).getLast? = some d →
        d ≠ '/' ∧ Js.isJsWs d = false := by
      intro d hd
      obtain ⟨s, hs1, hs2⟩ := getLast?_intercalate (x :: xs) (by simp)
        (fun s hs => (hall s (hss ▸ hs)).1)
      rw [hs2] at hd
      have hsmem : s ∈ x :: xs := by
        obtain ⟨hne2, heq⟩ := List.mem_getLast?_eq_getLast (Option.mem_def.mpr hs1)
        rw [heq]
        exact List.getLast_mem hne2
      have hsp := hall s (hss ▸ hsmem)
      refine ⟨?_, noWsEnds_last hsp.2.2 hd⟩
      have hdm : d ∈ s := by
        obtain ⟨hne2, heq⟩ := List.mem_getLast?_eq_getLast (Option.mem_def.mpr hd)
        rw [heq]
        exact List.getLast_mem hne2
      intro hcon
      have := hsp.2.1 d hdm
      rw [hcon] at this
      simp [isPathSep] at this
    unfold normalizePath
    rw [hcoll]
    rw [stripSlashes_eq_self (fun d hd => (hhead d hd).1) (fun d hd => (hlast d hd).1)]
    rw [jsTrim_eq_self (fun d hd => (hhead d hd).2) (fun d hd => (hlast d hd).2)]

theorem resolveSafe_inv (Q : List Char → Prop) :
    ∀ (segs : List (List Char)) (acc : List (List Char)),
    (∀ s ∈ segs, Q s) →
    (∀ s ∈ acc, Q s ∧ s ≠ ".".data ∧ s ≠ "..".data) →
    ∀ s ∈ segs.foldl resolveStep acc, Q s ∧ s ≠ ".".data ∧ s ≠ "..".data := by
  intro segs
  induction segs with
  | nil => intro acc _ hacc s hs; exact hacc s hs
  | cons x xs ih =>
    intro acc hsegs hacc s hs
    rw [List.foldl_cons] at hs
    refine ih _ (fun t ht => hsegs t (List.mem_cons_of_mem x ht)) ?_ s hs
    intro t ht
    unfold resolveStep at ht
    by_cases h1 : x = "..".data
    · rw [if_pos h1] at ht
      exact hacc t ((List.dropLast_sublist acc).mem ht)
    · rw [if_neg h1] at ht
      by_cases h2 : x = ".".data
      · rw [if_pos h2] at ht
        exact hacc t ht
      · rw [if_neg h2] at ht
        rcases List.mem_append.mp ht with h | h
        · exact hacc t h
        · simp only [List.mem_singleton] at h
          subst h
          exact ⟨hsegs t (List.mem_cons_self t xs), h2, h1⟩

end ResolvePath

namespace ResolvePath

theorem goodSeg_spec {s : List Char} (h : goodSeg s = true) :
    s ≠ [] ∧ '/' ∉ s ∧ '\\' ∉ s ∧ s ≠ ".".data ∧ s ≠ "..".data ∧ noWsEnds s = true := by
  simpa [goodSeg] using h

theorem sepFree_of {s : List Char} (h1 : '/' ∉ s) (h2 : '\\' ∉ s) :
    ∀ c ∈ s, isPathSep c = false := by
  intro c hc
  unfold isPathSep
  apply decide_eq_false
  rintro (h | h)
  · exact h1 (h ▸ hc)
  · exact h2 (h ▸ hc)

theorem intercalate_nil_of {pss : List (List Char)}
    (h : ['/'].intercalate pss = []) (hall : ∀ s ∈ pss, s ≠ []) : pss = [] := by
  cases pss with
  | nil => rfl
  | cons s ss =>
    exact absurd h (intercalate_ne_nil ss (hall s (List.mem_cons_self s ss)))

end ResolvePath

/-- C1 (amended): for every directory argument and every `cwd` that is
itself a resolved path (as `chdir` stores: `/` plus slash-joined
segments that are nonempty, separator-free, not `.`/`..` and not
whitespace-padded), and provided no segment of the resolved path carries
leading or trailing whitespace, `_resolvePath` returns a `clientPath`
beginning with `/` whose segments contain no `.` and no `..` (dots
dropped, `..` popped never past the root), and an `fsPath` whose
segments are exactly the configured bucket-prefix segments followed by
further segments none of which is `..` — so the result stays inside the
bucket+prefix root.  (Without the no-whitespace-padding hypothesis the
final trim can manufacture a literal `..`, see the counterexample; with
an arbitrary non-resolved `cwd` string the `.`-branch returns `cwd`
verbatim.) -/
theorem resolvePath_stays_in_root
    (bucketPrefix cwd dir : List Char) (pss css : List (List Char))
    (hpre1 : bucketPrefix = ['/'].intercalate pss)
    (hpre2 : ∀ s ∈ pss, s ≠ [] ∧ '/' ∉ s)
    (hcwd : ResolvePath.goodCwd cwd css)
    (hT : ¬(ResolvePath.normalizePath dir = ".".data ∨
          ResolvePath.normalizePath dir = []) →
      ∀ s ∈ ResolvePath.segsOf (ResolvePath.mainT cwd dir),
        ResolvePath.noWsEnds s = true) :
    (ResolvePath.resolvePathFn bucketPrefix cwd dir).1.head? = some '/' ∧
    (∀ s ∈ ResolvePath.segsOf (ResolvePath.resolvePathFn bucketPrefix cwd dir).1,
      s ≠ ".".data ∧ s ≠ "..".data) ∧
    ∃ rest, ResolvePath.segsOf (ResolvePath.resolvePathFn bucketPrefix cwd dir).2 =
        pss ++ rest ∧ ∀ s ∈ rest, s ≠ "..".data := by
  obtain ⟨hcwd1, hcwd2⟩ := hcwd
  have hcss : ∀ s ∈ css, ResolvePath.goodSeg s = true := List.all_eq_true.mp hcwd2
  have hcssP := fun s hs => ResolvePath.goodSeg_spec (hcss s hs)
  have hsegsPre : ResolvePath.segsOf bucketPrefix = pss := by
    rw [hpre1]
    exact ResolvePath.segsOf_intercalate pss hpre2
  by_cases hbr : (ResolvePath.normalizePath dir = ".".data ∨
      ResolvePath.normalizePath dir = [])
  · -- the `.`-branch: clientPath is cwd verbatim
    simp only [ResolvePath.resolvePathFn]
    rw [if_pos hbr]
    refine ⟨by rw [hcwd1]; rfl, ?_, ?_⟩
    · rw [hcwd1, ResolvePath.segsOf_cons_slash,
        ResolvePath.segsOf_intercalate css (fun s hs =>
          ⟨(hcssP s hs).1, (hcssP s hs).2.1⟩)]
      exact fun s hs => ⟨(hcssP s hs).2.2.2.1, (hcssP s hs).2.2.2.2.1⟩
    · by_cases hroot : cwd = "/".data
      · rw [if_pos hroot]
        have hcond : ¬(bucketPrefix ≠ [] ∧ bucketPrefix ≠ [] ∧
            bucketPrefix ≠ bucketPrefix) := by
          rintro ⟨-, -, h⟩; exact h rfl
        rw [if_neg hcond]
        refine ⟨[], ?_, by simp⟩
        rw [List.append_nil]
        by_cases hbp : bucketPrefix ≠ []
        · rw [if_pos hbp]; exact hsegsPre
        · rw [if_neg hbp]; exact hsegsPre
      · rw [if_neg hroot]
        have hcssne : css ≠ [] := by
          intro hc
          subst hc
          exact hroot (by rw [hcwd1]; rfl)
        obtain ⟨c0, css', rfl⟩ :
            ∃ a b, css = a :: b := by
          cases css with
          | nil => exact absurd rfl hcssne
          | cons a b => exact ⟨a, b, rfl⟩
        have hc0 := hcssP c0 (List.mem_cons_self c0 css')
        have hX : cwd.dropWhile (fun c => c = '/') =
            ['/'].intercalate (c0 :: css') := by
          rw [hcwd1]
          rw [List.dropWhile_cons]
          rw [if_pos (by simp)]
          apply ResolvePath.dropWhile_eq_self_of_head
          intro d hd
          rw [ResolvePath.head?_intercalate css' hc0.1] at hd
          cases hc0eq : c0 with
          | nil => exact absurd hc0eq hc0.1
          | cons a c0' =>
            rw [hc0eq] at hd
            simp only [List.head?_cons, Option.some.injEq] at hd
            simp only [decide_eq_false_iff_not]
            intro hcon
            have hfm : '/' ∉ a :: c0' := hc0eq ▸ hc0.2.1
            refine hfm ?_
            rw [← hd.trans hcon]
            exact List.mem_cons_self a c0'
        rw [hX]
        have hnorm : ResolvePath.normalizePath (['/'].intercalate (c0 :: css')) =
            ['/'].intercalate (c0 :: css') :=
          ResolvePath.normalize_intercalate (c0 :: css') (fun s hs =>
            ⟨(hcssP s hs).1,
             ResolvePath.sepFree_of (hcssP s hs).2.1 (hcssP s hs).2.2.1,
             (hcssP s hs).2.2.2.2.2⟩)
        rw [hnorm]
        by_cases hcond : (bucketPrefix ≠ [] ∧
            ['/'].intercalate (c0 :: css') ≠ [] ∧
            ['/'].intercalate (c0 :: css') ≠ bucketPrefix)
        · rw [if_pos hcond]
          have hpssne : pss ≠ [] := by
            intro hp
            subst hp
            exact hcond.1 hpre1
          refine ⟨c0 :: css', ?_, fun s hs => (hcssP s hs).2.2.2.2.1⟩
          rw [hpre1, ← ResolvePath.intercalate_append_good pss (c0 :: css') hpssne (by simp)]
          exact ResolvePath.segsOf_intercalate (pss ++ (c0 :: css'))
            (fun s hs => by
              rcases List.mem_append.mp hs with h | h
              · exact hpre2 s h
              · exact ⟨(hcssP s h).1, (hcssP s h).2.1⟩)
        · rw [if_neg hcond]
          by_cases hbp : bucketPrefix ≠ []
          · rw [if_pos hbp]
            exact ⟨[], by rw [List.append_nil]; exact hsegsPre, by simp⟩
          · rw [if_neg hbp]
            rw [not_not] at hbp
            have hpss : pss = [] :=
              ResolvePath.intercalate_nil_of (hpre1 ▸ hbp) (fun s hs => (hpre2 s hs).1)
            refine ⟨c0 :: css', ?_, fun s hs => (hcssP s hs).2.2.2.2.1⟩
            rw [hpss, List.nil_append]
            exact ResolvePath.segsOf_intercalate (c0 :: css')
              (fun s hs => ⟨(hcssP s hs).1, (hcssP s hs).2.1⟩)
  · -- the main branch
    simp only [ResolvePath.resolvePathFn]
    rw [if_neg hbr]
    have hcp0 : (if dir.head? = some '/' then '/' :: ResolvePath.normalizePath dir
        else '/' :: ResolvePath.normalizePath (cwd ++ '/' :: ResolvePath.normalizePath dir)) =
        '/' :: ResolvePath.mainT cwd dir := by
      unfold ResolvePath.mainT
      by_cases hh : dir.head? = some '/'
      · rw [if_pos hh, if_pos hh]
      · rw [if_neg hh, if_neg hh]
    rw [hcp0]
    dsimp only
    have hTs := hT hbr
    have hbs : '\\' ∉ ResolvePath.mainT cwd dir := by
      unfold ResolvePath.mainT
      by_cases hh : dir.head? = some '/'
      · rw [if_pos hh]; exact ResolvePath.backslash_not_mem_normalizePath dir
      · rw [if_neg hh]; exact ResolvePath.backslash_not_mem_normalizePath _
    have hQ : ∀ s ∈ ResolvePath.segsOf (ResolvePath.mainT cwd dir),
        (s ≠ [] ∧ '/' ∉ s ∧ '\\' ∉ s ∧ ResolvePath.noWsEnds s = true) := by
      intro s hs
      obtain ⟨h1, h2, h3⟩ := ResolvePath.mem_segsOf_props hs
      exact ⟨h1, h2, fun hb => hbs (h3 '\\' hb), hTs s hs⟩
    have hsafe : ∀ s ∈ ResolvePath.resolveSafe
        (ResolvePath.segsOf (ResolvePath.mainT cwd dir)),
        (s ≠ [] ∧ '/' ∉ s ∧ '\\' ∉ s ∧ ResolvePath.noWsEnds s = true) ∧
        s ≠ ".".data ∧ s ≠ "..".data :=
      ResolvePath.resolveSafe_inv
        (fun s => s ≠ [] ∧ '/' ∉ s ∧ '\\' ∉ s ∧ ResolvePath.noWsEnds s = true)
        (ResolvePath.segsOf (ResolvePath.mainT cwd dir)) [] hQ (by simp)
    rw [ResolvePath.segsOf_cons_slash]
    refine ⟨by simp, ?_, ?_⟩
    · rw [ResolvePath.segsOf_cons_slash, ResolvePath.segsOf_intercalate _
        (fun s hs => ⟨(hsafe s hs).1.1, (hsafe s hs).1.2.1⟩)]
      exact fun s hs => ⟨(hsafe s hs).2.1, (hsafe s hs).2.2⟩
    · have hdw : ('/' :: ['/'].intercalate (ResolvePath.resolveSafe
          (ResolvePath.segsOf (ResolvePath.mainT cwd dir)))).dropWhile
            (fun c => c = '/') =
          (['/'].intercalate (ResolvePath.resolveSafe
            (ResolvePath.segsOf (ResolvePath.mainT cwd dir)))).dropWhile
            (fun c => c = '/') := by
        rw [List.dropWhile_cons, if_pos (by simp)]
      rw [hdw]
      cases hsf : ResolvePath.resolveSafe
          (ResolvePath.segsOf (ResolvePath.mainT cwd dir)) with
      | nil =>
        have hz : ((['/'].intercalate ([] : List (List Char))).dropWhile
            (fun c => c = '/')) = [] := rfl
        rw [hz]
        have hn0 : ResolvePath.normalizePath [] = [] := rfl
        rw [hn0]
        rw [if_neg (show ¬(([] : List Char) ≠ []) by simp)]
        by_cases hbp : bucketPrefix ≠ []
        · rw [if_pos hbp]
          exact ⟨[], by rw [List.append_nil, List.append_nil]; exact hsegsPre, by simp⟩
        · rw [if_neg hbp]
          rw [not_not] at hbp
          have hpss : pss = [] :=
            ResolvePath.intercalate_nil_of (hpre1 ▸ hbp) (fun s hs => (hpre2 s hs).1)
          exact ⟨[], by rw [hpss]; rfl, by simp⟩
      | cons s0 safe' =>
        have hsafe' : ∀ s ∈ s0 :: safe',
            (s ≠ [] ∧ '/' ∉ s ∧ '\\' ∉ s ∧ ResolvePath.noWsEnds s = true) ∧
            s ≠ ".".data ∧ s ≠ "..".data := hsf ▸ hsafe
        have hs0 := hsafe' s0 (List.mem_cons_self s0 safe')
        have hXne : ['/'].intercalate (s0 :: safe') ≠ [] :=
          ResolvePath.intercalate_ne_nil safe' hs0.1.1
        have hdw2 : (['/'].intercalate (s0 :: safe')).dropWhile
            (fun c => c = '/') = ['/'].intercalate (s0 :: safe') := by
          apply ResolvePath.dropWhile_eq_self_of_head
          intro d hd
          rw [ResolvePath.head?_intercalate safe' hs0.1.1] at hd
          cases hs0eq : s0 with
          | nil => exact absurd hs0eq hs0.1.1
          | cons a s0' =>
            rw [hs0eq] at hd
            simp only [List.head?_cons, Option.some.injEq] at hd
            simp only [decide_eq_false_iff_not]
            intro hcon
            have hfm : '/' ∉ a :: s0' := hs0eq ▸ hs0.1.2.1
            refine hfm ?_
            rw [← hd.trans hcon]
            exact List.mem_cons_self a s0'
        rw [hdw2]
        have hnorm : ResolvePath.normalizePath (['/'].intercalate (s0 :: safe')) =
            ['/'].intercalate (s0 :: safe') :=
          ResolvePath.normalize_intercalate (s0 :: safe') (fun s hs =>
            ⟨(hsafe' s hs).1.1,
             ResolvePath.sepFree_of (hsafe' s hs).1.2.1 (hsafe' s hs).1.2.2.1,
             (hsafe' s hs).1.2.2.2⟩)
        rw [hnorm]
        by_cases hbp : bucketPrefix ≠ []
        · rw [if_pos hbp, if_pos hXne]
          have hpssne : pss ≠ [] := by
            intro hp
            subst hp
            exact hbp hpre1
          refine ⟨s0 :: safe', ?_, fun s hs => (hsafe' s hs).2.2⟩
          rw [hpre1, ← ResolvePath.intercalate_append_good pss (s0 :: safe') hpssne (by simp)]
          exact ResolvePath.segsOf_intercalate (pss ++ (s0 :: safe'))
            (fun s hs => by
              rcases List.mem_append.mp hs with h | h
              · exact hpre2 s h
              · exact ⟨(hsafe' s h).1.1, (hsafe' s h).1.2.1⟩)
        · rw [if_neg hbp]
          rw [not_not] at hbp
          have hpss : pss = [] :=
            ResolvePath.intercalate_nil_of (hpre1 ▸ hbp) (fun s hs => (hpre2 s hs).1)
          refine ⟨s0 :: safe', ?_, fun s hs => (hsafe' s hs).2.2⟩
          rw [hpss, List.nil_append]
          exact ResolvePath.segsOf_intercalate (s0 :: safe')
            (fun s hs => ⟨(hsafe' s hs).1.1, (hsafe' s hs).1.2.1⟩)

/-- Witness for `resolvePath_stays_in_root`: prefix `p`, cwd `/`,
argument `../../a/./b` (leading `..` segments included). -/
theorem resolvePath_stays_in_root_witness :
    (ResolvePath.resolvePathFn "p".data "/".data "../../a/./b".data).1.head? = some '/' ∧
    (∀ s ∈ ResolvePath.segsOf
        (ResolvePath.resolvePathFn "p".data "/".data "../../a/./b".data).1,
      s ≠ ".".data ∧ s ≠ "..".data) ∧
    ∃ rest, ResolvePath.segsOf
        (ResolvePath.resolvePathFn "p".data "/".data "../../a/./b".data).2 =
        ["p".data] ++ rest ∧ ∀ s ∈ rest, s ≠ "..".data :=
  resolvePath_stays_in_root "p".data "/".data "../../a/./b".data ["p".data] []
    (by decide) (by decide) ⟨by decide, by decide⟩ (fun _ => by decide)
